import Mathlib

/-!
Verification of the cron scheduling engine (schedule parsing and matching,
script result construction, template resolution, and the per-tick job loop)
via a shallow embedding of the TypeScript source into Lean.

Conventions of the embedding:
- JS strings are Lean `String` (a structure over `List Char`); character-level
  operations work on the underlying `List Char`.
- Effectful operations (child processes, message delivery) are made explicit:
  the environment supplies the outcome of each external call, and the embedded
  functions compute exactly what the source computes from those outcomes.
- JS numeric parsing (`parseInt`, `Number`) is modelled for decimal integer
  literals; non-integer numerals (floats, hex, exponents) are treated as NaN.
-/

/-- Literal opening brace character, written via its code point. -/
def lbrace : Char := Char.ofNat 123

/-- Literal closing brace character, written via its code point. -/
def rbrace : Char := Char.ofNat 125

/-- Tests whether the first list is a prefix of the second (Boolean). -/
def startsWithL : List Char → List Char → Bool
  | [], _ => true
  | _ :: _, [] => false
  | p :: ps, c :: cs => p == c && startsWithL ps cs

/-- Prepends a character onto the first piece of a split result. -/
def consHead (c : Char) : List (List Char) → List (List Char)
  | [] => [[c]]
  | h :: r => (c :: h) :: r

/-- Fuel-driven worker for JavaScript `String.prototype.split` with a
non-empty separator `p :: pat`: leftmost, non-overlapping matches. -/
def splitGo (p : Char) (pat : List Char) : Nat → List Char → List (List Char)
  | _, [] => [[]]
  | 0, s => [s]
  | fuel + 1, c :: t =>
    if startsWithL (p :: pat) (c :: t) then
      [] :: splitGo p pat fuel (t.drop pat.length)
    else
      consHead c (splitGo p pat fuel t)

/-- JavaScript `s.split(tok)` for the non-empty token `p :: pat`. -/
def splitTokenL (p : Char) (pat : List Char) (s : List Char) : List (List Char) :=
  splitGo p pat s.length s

/-- JavaScript `parts.join(sep)`. -/
def joinWithL (sep : List Char) : List (List Char) → List Char
  | [] => []
  | [x] => x
  | x :: y :: r => x ++ sep ++ joinWithL sep (y :: r)

/-- JavaScript `s.split(tok).join(rep)`: replace every occurrence of the
non-empty token `p :: pat` by `rep`. -/
def replaceAllL (p : Char) (pat rep s : List Char) : List Char :=
  joinWithL rep (splitTokenL p pat s)

/-- Boolean containment of the non-empty token `p :: pat` in a string. -/
def containsTokenL (p : Char) (pat : List Char) : List Char → Bool
  | [] => false
  | c :: t => startsWithL (p :: pat) (c :: t) || containsTokenL p pat t

/-- Result of one script execution (`CronScriptResult` of cron-schema.ts). -/
structure CronScriptResult where
  name : String
  exitCode : Int
  stdout : String
  stderr : String
  durationMs : Nat
  error : Option String
deriving DecidableEq, Repr

/-- Tail of the placeholder token for a script name: the full token is
`lbrace :: placeholderTail n`, i.e. two braces, the name, two braces. -/
def placeholderTail (n : String) : List Char :=
  lbrace :: (n.data ++ [rbrace, rbrace])

/-- Text of the bracketed error marker inserted for a failed script. -/
def scriptErrorMarker (e : String) : List Char :=
  ("[script error: " ++ e ++ "]").data

/-- JavaScript `replacement.replace(/\n$/, "")`: strips at most one
trailing newline. -/
def stripTrailingNewlineL (s : List Char) : List Char :=
  match s.getLast? with
  | some c => if c = '\n' then s.dropLast else s
  | none => s

/-- Replacement text for one script result, per resolveScriptTemplates:
stdout, or stdout plus an error marker when `error` is truthy (a JS string
is truthy iff non-empty), with one trailing newline stripped. -/
def replacementFor (r : CronScriptResult) : List Char :=
  let base :=
    match r.error with
    | some e =>
      if e.length != 0 then
        if r.stdout.length != 0 then r.stdout.data ++ '\n' :: scriptErrorMarker e
        else scriptErrorMarker e
      else r.stdout.data
    | none => r.stdout.data
  stripTrailingNewlineL base

/-- One iteration of the resolveScriptTemplates loop: replace every
occurrence of the result's placeholder in the accumulating string. -/
def resolveStepL (acc : List Char) (r : CronScriptResult) : List Char :=
  replaceAllL lbrace (placeholderTail r.name) (replacementFor r) acc

/-- resolveScriptTemplates of cron.ts: sequentially replaces each result's
placeholder in the message. -/
def resolveScriptTemplates (message : String) (results : List CronScriptResult) : String :=
  String.mk (results.foldl resolveStepL message.data)

theorem startsWithL_false_of_containsTokenL_false {p : Char} {pat s : List Char}
    (h : containsTokenL p pat s = false) (c : Char) (t : List Char) (hs : s = c :: t) :
    startsWithL (p :: pat) (c :: t) = false ∧ containsTokenL p pat t = false := by
  subst hs
  simp only [containsTokenL, Bool.or_eq_false_iff] at h
  exact h

theorem splitGo_of_not_contains (p : Char) (pat : List Char) :
    ∀ (s : List Char) (fuel : Nat), s.length ≤ fuel →
      containsTokenL p pat s = false → splitGo p pat fuel s = [s] := by
  intro s
  induction s with
  | nil => intro fuel _ _; cases fuel <;> rfl
  | cons c t ih =>
    intro fuel hf hc
    obtain ⟨h1, h2⟩ := startsWithL_false_of_containsTokenL_false hc c t rfl
    cases fuel with
    | zero => simp at hf
    | succ f =>
      have hlen : t.length ≤ f := by
        simpa [List.length_cons, Nat.succ_le_succ_iff] using hf
      simp only [splitGo, h1, Bool.false_eq_true, if_false]
      rw [ih f hlen h2]
      rfl

/-- Replacing a token that does not occur in a string leaves it unchanged. -/
theorem replaceAllL_of_not_contains (p : Char) (pat rep s : List Char)
    (h : containsTokenL p pat s = false) : replaceAllL p pat rep s = s := by
  unfold replaceAllL splitTokenL
  rw [splitGo_of_not_contains p pat s s.length (Nat.le_refl _) h]
  rfl

/-- A resolve step whose placeholder does not occur leaves the string
unchanged. -/
theorem resolveStepL_of_not_contains (s : List Char) (r : CronScriptResult)
    (h : containsTokenL lbrace (placeholderTail r.name) s = false) :
    resolveStepL s r = s :=
  replaceAllL_of_not_contains _ _ _ _ h

/-- Folding resolve steps over a string containing none of the placeholders
leaves it unchanged. -/
theorem foldl_resolveStepL_of_not_contains :
    ∀ (rs : List CronScriptResult) (s : List Char),
      (∀ r ∈ rs, containsTokenL lbrace (placeholderTail r.name) s = false) →
      rs.foldl resolveStepL s = s := by
  intro rs
  induction rs with
  | nil => intro s _; rfl
  | cons r rest ih =>
    intro s h
    have hr : resolveStepL s r = s :=
      resolveStepL_of_not_contains s r (h r (List.mem_cons_self r rest))
    simp only [List.foldl_cons, hr]
    exact ih s (fun x hx => h x (List.mem_cons_of_mem r hx))

/-- Claim C9: template resolution is idempotent once the output contains no
remaining placeholder token for any name in the result list: resolving the
already-resolved text against the same results leaves it unchanged. -/
theorem resolveScriptTemplates_idempotent (m : String) (rs : List CronScriptResult)
    (h : ∀ r ∈ rs,
      containsTokenL lbrace (placeholderTail r.name) (resolveScriptTemplates m rs).data = false) :
    resolveScriptTemplates (resolveScriptTemplates m rs) rs = resolveScriptTemplates m rs := by
  unfold resolveScriptTemplates
  congr 1
  exact foldl_resolveStepL_of_not_contains rs (resolveScriptTemplates m rs).data h

/-- Witness for C9 at a concrete message and result list. -/
theorem resolveScriptTemplates_idempotent_witness :
    resolveScriptTemplates
        (resolveScriptTemplates (String.mk [lbrace, lbrace, 'x', rbrace, rbrace])
          [⟨"x", 0, "42\n", "", 1, none⟩])
        [⟨"x", 0, "42\n", "", 1, none⟩] =
      resolveScriptTemplates (String.mk [lbrace, lbrace, 'x', rbrace, rbrace])
        [⟨"x", 0, "42\n", "", 1, none⟩] :=
  resolveScriptTemplates_idempotent _ _ (by decide)

/-- The message consisting of exactly one shared placeholder token. -/
def sharedTokenMessage : String := String.mk [lbrace, lbrace, 'x', rbrace, rbrace]

/-- First of two results sharing the name "x"; its stdout is "a". -/
def dupResultA : CronScriptResult := ⟨"x", 0, "a", "", 1, none⟩

/-- Second of two results sharing the name "x"; its stdout is "b". -/
def dupResultB : CronScriptResult := ⟨"x", 0, "b", "", 1, none⟩

/-- Counterexample to claim C2: with two results sharing the name "x"
(stdouts "a" then "b"), the shared token resolves to the FIRST result's
text "a", not the second's "b" — the first pass consumes every occurrence
of the token, so the later result finds nothing left to replace. -/
theorem resolveScriptTemplates_first_wins_counterexample :
    resolveScriptTemplates sharedTokenMessage [dupResultA, dupResultB] = "a" ∧
    resolveScriptTemplates sharedTokenMessage [dupResultB] = "b" ∧
    ("a" : String) ≠ "b" := by
  refine ⟨by decide, by decide, by decide⟩

/-- Claim C2 as amended: when two results share a name, the FIRST (earlier)
result's replacement wins for the shared token: provided the first
replacement does not itself reintroduce the token, the second pass leaves
the accumulated string unchanged, so resolving against both results equals
resolving against the first alone. -/
theorem resolveScriptTemplates_first_wins (m : String) (a b : CronScriptResult)
    (hname : a.name = b.name)
    (hno : containsTokenL lbrace (placeholderTail a.name) (resolveStepL m.data a) = false) :
    resolveScriptTemplates m [a, b] = resolveScriptTemplates m [a] := by
  unfold resolveScriptTemplates
  simp only [List.foldl_cons, List.foldl_nil]
  congr 1
  exact resolveStepL_of_not_contains _ b (by rwa [← hname])

/-- Witness for the amended C2 at the concrete duplicate-name inputs. -/
theorem resolveScriptTemplates_first_wins_witness :
    resolveScriptTemplates sharedTokenMessage [dupResultA, dupResultB] =
      resolveScriptTemplates sharedTokenMessage [dupResultA] :=
  resolveScriptTemplates_first_wins sharedTokenMessage dupResultA dupResultB rfl (by decide)

/-- A script attached to a job (`CronScript` of cron-schema.ts). -/
structure CronScript where
  name : String
  command : String
  timeout : Option Nat
  cwd : Option String
deriving DecidableEq, Repr

/-- Outcome of the `execAsync` call for one script, supplied by the
environment: either the promise resolved with captured stdout/stderr, or it
rejected with an error object carrying an optional exit code, the partial
output captured so far, and an optional message. -/
inductive ExecOutcome where
  | ok (stdout stderr : String)
  | fail (code : Option Int) (stdout stderr : Option String) (message : Option String)

/-- The 50,000-character logical output cap (MAX_SCRIPT_OUTPUT of cron.ts). -/
def MAX_SCRIPT_OUTPUT : Nat := 50000

/-- The truncation marker appended when output exceeds the cap. -/
def truncationMarker : String := "\n... (truncated)"

/-- Truncation applied on the success path of executeCronScript:
`s.length > 50000 ? s.substring(0, 50000) + "\n... (truncated)" : s`. -/
def truncateOutput (s : String) : String :=
  if s.length > MAX_SCRIPT_OUTPUT then
    String.mk (s.data.take MAX_SCRIPT_OUTPUT ++ truncationMarker.data)
  else s

/-- executeCronScript of cron.ts as a function of the process outcome: the
try branch truncates stdout/stderr; the catch branch converts the error into
a result (exit code defaulted to 1, captured output defaulted to empty)
WITHOUT truncation. -/
def executeCronScript (script : CronScript) (outcome : ExecOutcome) (durationMs : Nat) :
    CronScriptResult :=
  match outcome with
  | .ok out err =>
    { name := script.name, exitCode := 0, stdout := truncateOutput out,
      stderr := truncateOutput err, durationMs := durationMs, error := none }
  | .fail code out err msg =>
    { name := script.name, exitCode := code.getD 1, stdout := out.getD "",
      stderr := err.getD "", durationMs := durationMs, error := msg }

/-- Worker for executeCronScripts: runs the scripts strictly sequentially,
the environment supplying the outcome and duration of the i-th execution. -/
def executeCronScriptsGo (outcome : Nat → ExecOutcome) (dur : Nat → Nat) :
    Nat → List CronScript → List CronScriptResult
  | _, [] => []
  | i, s :: rest =>
    executeCronScript s (outcome i) (dur i) :: executeCronScriptsGo outcome dur (i + 1) rest

/-- executeCronScripts of cron.ts: sequential execution of the whole list. -/
def executeCronScripts (outcome : Nat → ExecOutcome) (dur : Nat → Nat)
    (scripts : List CronScript) : List CronScriptResult :=
  executeCronScriptsGo outcome dur 0 scripts

theorem executeCronScriptsGo_length (outcome : Nat → ExecOutcome) (dur : Nat → Nat) :
    ∀ (scripts : List CronScript) (i : Nat),
      (executeCronScriptsGo outcome dur i scripts).length = scripts.length := by
  intro scripts
  induction scripts with
  | nil => intro i; rfl
  | cons s rest ih =>
    intro i
    simp only [executeCronScriptsGo, List.length_cons, ih (i + 1)]

theorem executeCronScriptsGo_get (outcome : Nat → ExecOutcome) (dur : Nat → Nat) :
    ∀ (scripts : List CronScript) (i k : Nat) (hk : k < scripts.length),
      (executeCronScriptsGo outcome dur i scripts).get
          ⟨k, by rw [executeCronScriptsGo_length]; exact hk⟩ =
        executeCronScript (scripts.get ⟨k, hk⟩) (outcome (i + k)) (dur (i + k)) := by
  intro scripts
  induction scripts with
  | nil => intro i k hk; simp at hk
  | cons s rest ih =>
    intro i k hk
    cases k with
    | zero => simp [executeCronScriptsGo]
    | succ k =>
      have hk2 : k < rest.length := Nat.lt_of_succ_lt_succ hk
      have h2 := ih (i + 1) k hk2
      have harith : i + 1 + k = i + (k + 1) := by omega
      rw [harith] at h2
      simpa [executeCronScriptsGo] using h2

/-- Claim C7: executeCronScripts executes entries strictly sequentially in
list order and returns one ScriptResult per script in the same order; each
result — including a failure outcome, which is converted into a result
carrying the error rather than thrown — is exactly the result of that
script's own execution, so an earlier failure never prevents a later script
from producing its result. -/
theorem executeCronScripts_elementwise (outcome : Nat → ExecOutcome) (dur : Nat → Nat)
    (scripts : List CronScript) :
    (executeCronScripts outcome dur scripts).length = scripts.length ∧
    (∀ (k : Nat) (hk : k < scripts.length),
      (executeCronScripts outcome dur scripts).get
          ⟨k, by rw [executeCronScripts, executeCronScriptsGo_length]; exact hk⟩ =
        executeCronScript (scripts.get ⟨k, hk⟩) (outcome k) (dur k)) := by
  constructor
  · exact executeCronScriptsGo_length outcome dur scripts 0
  · intro k hk
    have := executeCronScriptsGo_get outcome dur scripts 0 k hk
    simpa using this

/-- Witness for C7: two scripts where the first times out (a failure
outcome); both still produce results, in order, the first carrying the
error. -/
theorem executeCronScripts_elementwise_witness :
    (executeCronScripts
        (fun i => if i = 0 then ExecOutcome.fail none none none (some "timeout") else ExecOutcome.ok "ok\n" "")
        (fun _ => 1)
        [⟨"a", "sleep 99", some 10, none⟩, ⟨"b", "true", none, none⟩]).length = 2 ∧
    (executeCronScripts
        (fun i => if i = 0 then ExecOutcome.fail none none none (some "timeout") else ExecOutcome.ok "ok\n" "")
        (fun _ => 1)
        [⟨"a", "sleep 99", some 10, none⟩, ⟨"b", "true", none, none⟩]).get
        ⟨1, by decide⟩ = ⟨"b", 0, "ok\n", "", 1, none⟩ := by
  have h := executeCronScripts_elementwise
    (fun i => if i = 0 then ExecOutcome.fail none none none (some "timeout") else ExecOutcome.ok "ok\n" "")
    (fun _ => 1)
    [⟨"a", "sleep 99", some 10, none⟩, ⟨"b", "true", none, none⟩]
  refine ⟨h.1, ?_⟩
  have h1 := h.2 1 (by decide)
  rw [h1]
  decide

/-- A 60,000-character output, exceeding the logical cap by far (and far
longer than any capped-and-marked value could be). -/
def hugeOutput : String := String.mk (List.replicate 60000 'a')

theorem hugeOutput_length : hugeOutput.length = 60000 := by
  show (List.replicate 60000 'a').length = 60000
  exact List.length_replicate 60000 'a'

/-- Counterexample to claim C4: a script that failed (the catch branch of
executeCronScript) has its captured stdout passed through UNtruncated — here
a 60,000-character stdout survives intact, longer than the maximum possible
length (50,016) of any output capped at 50,000 characters with the marker
appended. Only the success branch truncates. -/
theorem executeCronScript_failure_not_truncated_counterexample :
    (executeCronScript ⟨"s", "cmd", none, none⟩
        (ExecOutcome.fail none (some hugeOutput) none (some "boom")) 5).stdout.length = 60000 ∧
    MAX_SCRIPT_OUTPUT + truncationMarker.length < 60000 := by
  constructor
  · have hs : (executeCronScript ⟨"s", "cmd", none, none⟩
        (ExecOutcome.fail none (some hugeOutput) none (some "boom")) 5).stdout = hugeOutput := rfl
    rw [hs, hugeOutput_length]
  · decide

/-- Claim C4 as amended: the 50,000-character cap with truncation marker is
applied to stdout and stderr only on the SUCCESS path of executeCronScript
(outputs at most 50,000 characters pass through unchanged; longer ones are
cut to exactly 50,000 characters plus the 16-character marker); on the
failure path (non-zero exit, timeout, or spawn failure) the captured
stdout/stderr are recorded as captured, without the logical cap — bounded
only by the 1 MB process-level buffer outside this model. -/
theorem executeCronScript_truncation :
    (∀ (script : CronScript) (out err : String) (d : Nat),
      (executeCronScript script (ExecOutcome.ok out err) d).stdout = truncateOutput out ∧
      (executeCronScript script (ExecOutcome.ok out err) d).stderr = truncateOutput err) ∧
    (∀ s : String, s.length ≤ MAX_SCRIPT_OUTPUT → truncateOutput s = s) ∧
    (∀ s : String, s.length > MAX_SCRIPT_OUTPUT →
      (truncateOutput s).length = MAX_SCRIPT_OUTPUT + truncationMarker.length ∧
      (truncateOutput s).data = s.data.take MAX_SCRIPT_OUTPUT ++ truncationMarker.data) ∧
    (∀ (script : CronScript) (code : Option Int) (out err msg : Option String) (d : Nat),
      (executeCronScript script (ExecOutcome.fail code out err msg) d).stdout = out.getD "" ∧
      (executeCronScript script (ExecOutcome.fail code out err msg) d).stderr = err.getD "") := by
  refine ⟨fun script out err d => ⟨rfl, rfl⟩, ?_, ?_, fun script code out err msg d => ⟨rfl, rfl⟩⟩
  · intro s hs
    unfold truncateOutput
    rw [if_neg (by omega)]
  · intro s hs
    unfold truncateOutput
    rw [if_pos hs]
    refine ⟨?_, rfl⟩
    simp only [String.length] at hs ⊢
    rw [List.length_append, List.length_take]
    omega

/-- Witness for the amended C4 at concrete inputs: a successful result's
over-long stdout is capped with the marker, and a failed result's stdout is
passed through. -/
theorem executeCronScript_truncation_witness :
    (executeCronScript ⟨"s", "cmd", none, none⟩ (ExecOutcome.ok hugeOutput "") 5).stdout.length =
      MAX_SCRIPT_OUTPUT + truncationMarker.length ∧
    truncateOutput "hi" = "hi" ∧
    (executeCronScript ⟨"s", "cmd", none, none⟩
        (ExecOutcome.fail none (some hugeOutput) none (some "boom")) 5).stdout = hugeOutput := by
  have h := executeCronScript_truncation
  refine ⟨?_, ?_, ?_⟩
  · have h1 := (h.1 ⟨"s", "cmd", none, none⟩ hugeOutput "" 5).1
    rw [h1]
    have h3 := (h.2.2.1 hugeOutput (by rw [hugeOutput_length]; decide)).1
    exact h3
  · exact h.2.1 "hi" (by decide)
  · exact (h.2.2.2 ⟨"s", "cmd", none, none⟩ none (some hugeOutput) none (some "boom") 5).1

/-- Characters JavaScript treats as whitespace for numeric conversion
(restricted to the common ones). -/
def jsWhitespace (c : Char) : Bool :=
  c == ' ' || c == '\t' || c == '\n' || c == '\r'

/-- Numeric value of a decimal digit character. -/
def digitVal (c : Char) : Nat := c.toNat - 48

/-- Decimal decoding of a digit list, most significant first. -/
def decodeDigits (ds : List Char) : Nat :=
  ds.foldl (fun a c => a * 10 + digitVal c) 0

/-- Leading-digit parse used by `parseInt`: the longest digit prefix, or
none when there is no leading digit. -/
def leadingDigits (s : List Char) : Option Nat :=
  let ds := s.takeWhile Char.isDigit
  if ds.isEmpty then none else some (decodeDigits ds)

/-- JavaScript `parseInt(s, 10)` modelled on decimal integers: skip leading
whitespace, an optional sign, then the longest digit prefix (trailing
garbage ignored); NaN (none) when no digit follows. -/
def jsParseInt10 (s : List Char) : Option Int :=
  let s1 := s.dropWhile jsWhitespace
  match s1 with
  | [] => none
  | c :: rest =>
    if c = '-' then (leadingDigits rest).map (fun n => -(n : Int))
    else if c = '+' then (leadingDigits rest).map (fun n => (n : Int))
    else (leadingDigits (c :: rest)).map (fun n => (n : Int))

/-- JavaScript `Number(s)` modelled on decimal integers: trim whitespace,
empty string is 0, an optional sign followed by digits only; anything else
— including non-integer numerals, which do not occur in the studied claims
— is NaN (none). -/
def jsNumberInt (s : List Char) : Option Int :=
  let t := ((s.dropWhile jsWhitespace).reverse.dropWhile jsWhitespace).reverse
  match t with
  | [] => some 0
  | c :: rest =>
    if c = '-' then
      if rest ≠ [] ∧ rest.all Char.isDigit then some (-(decodeDigits rest : Int)) else none
    else if c = '+' then
      if rest ≠ [] ∧ rest.all Char.isDigit then some ((decodeDigits rest : Int)) else none
    else
      if (c :: rest).all Char.isDigit then some ((decodeDigits (c :: rest) : Int)) else none

/-- JavaScript single-character `s.split(sep)`, keeping empty pieces. -/
def splitCharL (sep : Char) : List Char → List (List Char)
  | [] => [[]]
  | c :: t => if c = sep then [] :: splitCharL sep t else consHead c (splitCharL sep t)

/-- Boolean membership of a character in a string (JS `includes` for a
single-character needle). -/
def hasChar (c : Char) (s : List Char) : Bool := s.any (fun x => x == c)

/-- The inclusive integer range from lo to hi, as built by the source's
`Array.from({length: max - min + 1}, (_, i) => min + i)`. -/
def intRange (lo hi : Int) : List Int :=
  (List.range (hi - lo + 1).toNat).map (fun i => lo + (i : Int))

/-- The per-field parser `parse(part, min, max)` inside parseCronSchedule:
a `*` is the full range; `*/N` keeps every Nth value (N from parseInt,
positive); a comma list converts each piece with Number and bounds-checks
it; a dash range converts the first two pieces with Number and checks
bounds and order; otherwise a single parseInt value is bounds-checked.
Failures raise, modelled as `Except.error`. -/
def parseField (part : List Char) (lo hi : Int) : Except String (List Int) :=
  if part = ['*'] then .ok (intRange lo hi)
  else if startsWithL ['*', '/'] part then
    match jsParseInt10 (part.drop 2) with
    | none => .error "Invalid step"
    | some step =>
      if step ≤ 0 then .error "Invalid step"
      else .ok ((intRange lo hi).filter (fun v => (v - lo) % step = 0))
  else if hasChar ',' part then
    let pieces := splitCharL ',' part
    if pieces.all (fun p =>
        match jsNumberInt p with
        | some v => decide (lo ≤ v) && decide (v ≤ hi)
        | none => false) then
      .ok (pieces.map (fun p => (jsNumberInt p).getD 0))
    else .error "Value out of range"
  else if hasChar '-' part then
    match splitCharL '-' part with
    | a :: b :: _ =>
      match jsNumberInt a, jsNumberInt b with
      | some st, some en =>
        if st < lo ∨ en > hi ∨ st > en then .error "Invalid range"
        else .ok (intRange st en)
      | _, _ => .error "Invalid range"
    | _ => .error "Invalid range"
  else
    match jsParseInt10 part with
    | some v => if v < lo ∨ v > hi then .error "Value out of range" else .ok [v]
    | none => .error "Value out of range"

/-- The five parsed value sets of a cron expression. -/
structure CronSets where
  minute : List Int
  hour : List Int
  day : List Int
  month : List Int
  weekday : List Int
deriving DecidableEq, Repr

/-- parseCronSchedule of cron.ts: split on single spaces, require exactly 5
parts, then parse each field against its bounds. -/
def parseCronSchedule (schedule : String) : Except String CronSets := do
  match splitCharL ' ' schedule.data with
  | [p0, p1, p2, p3, p4] =>
    let minute ← parseField p0 0 59
    let hour ← parseField p1 0 23
    let day ← parseField p2 1 31
    let month ← parseField p3 1 12
    let weekday ← parseField p4 0 6
    pure ⟨minute, hour, day, month, weekday⟩
  | _ => .error "Invalid cron schedule"

/-- The calendar fields of a JavaScript Date as its getters return them:
getMinutes, getHours, getDate, getMonth (0-based), getDay (0=Sunday). -/
structure JsDate where
  minutes : Int
  hours : Int
  date : Int
  month : Int
  day : Int
deriving DecidableEq, Repr

/-- shouldRunCron of cron.ts: parse the schedule (errors swallowed to
false) and test membership of each of the five calendar fields, with
day-of-month and weekday ANDed. -/
def shouldRunCron (schedule : String) (d : JsDate) : Bool :=
  match parseCronSchedule schedule with
  | .ok cron =>
    cron.minute.contains d.minutes && cron.hour.contains d.hours &&
      cron.day.contains d.date && cron.month.contains (d.month + 1) &&
      cron.weekday.contains d.day
  | .error _ => false

/-- Claim C3: shouldRunCron returns true exactly when the schedule parses
as a valid 5-field cron expression and each of the five calendar fields of
the timestamp is a member of the corresponding parsed set (day-of-month and
weekday combined by AND); and on any malformed expression it returns false
rather than raising. -/
theorem shouldRunCron_iff :
    (∀ (s : String) (d : JsDate),
      shouldRunCron s d = true ↔
        ∃ cron : CronSets, parseCronSchedule s = .ok cron ∧
          cron.minute.contains d.minutes = true ∧ cron.hour.contains d.hours = true ∧
          cron.day.contains d.date = true ∧ cron.month.contains (d.month + 1) = true ∧
          cron.weekday.contains d.day = true) ∧
    (∀ (s : String) (d : JsDate) (e : String),
      parseCronSchedule s = .error e → shouldRunCron s d = false) := by
  constructor
  · intro s d
    unfold shouldRunCron
    cases h : parseCronSchedule s with
    | ok cron =>
      simp only [Bool.and_eq_true]
      constructor
      · rintro ⟨⟨⟨⟨h1, h2⟩, h3⟩, h4⟩, h5⟩
        exact ⟨cron, rfl, h1, h2, h3, h4, h5⟩
      · rintro ⟨c2, hc2, h1, h2, h3, h4, h5⟩
        cases hc2
        exact ⟨⟨⟨⟨h1, h2⟩, h3⟩, h4⟩, h5⟩
    | error e =>
      simp only [Bool.false_eq_true, false_iff]
      rintro ⟨c2, hc2, -⟩
      exact Except.noConfusion hc2
  · intro s d e h
    unfold shouldRunCron
    rw [h]

/-- Witness for C3: a matching timestamp for a wildcard schedule, and a
malformed schedule yielding false. -/
theorem shouldRunCron_iff_witness :
    shouldRunCron "* * * * *" ⟨30, 9, 1, 0, 3⟩ = true ∧
    shouldRunCron "invalid" ⟨30, 9, 1, 0, 3⟩ = false := by
  constructor
  · exact (shouldRunCron_iff.1 "* * * * *" ⟨30, 9, 1, 0, 3⟩).mpr
      ⟨⟨intRange 0 59, intRange 0 23, intRange 1 31, intRange 1 12, intRange 0 6⟩,
        rfl, by decide, by decide, by decide, by decide, by decide⟩
  · exact shouldRunCron_iff.2 "invalid" ⟨30, 9, 1, 0, 3⟩ "Invalid cron schedule" rfl

/-- Non-empty all-decimal-digit string. -/
def allDigits (ds : List Char) : Bool := !ds.isEmpty && ds.all Char.isDigit

/-- Modelled from the spec (section 4.1 field grammar), for comparison with
the source parser: a field is `*`, `*/N` with N a positive integer, an
explicit comma list of at least two in-bounds integers, an inclusive
in-bounds range `a-b` with a ≤ b, or a single in-bounds integer. -/
def specFieldValid (lo hi : Int) (f : List Char) : Bool :=
  decide (f = ['*']) ||
  (startsWithL ['*', '/'] f && allDigits (f.drop 2) &&
    decide (0 < (decodeDigits (f.drop 2) : Int))) ||
  (decide (2 ≤ (splitCharL ',' f).length) &&
    (splitCharL ',' f).all (fun p =>
      allDigits p && decide (lo ≤ (decodeDigits p : Int)) &&
        decide ((decodeDigits p : Int) ≤ hi))) ||
  (match splitCharL '-' f with
   | [a, b] =>
     allDigits a && allDigits b && decide (lo ≤ (decodeDigits a : Int)) &&
       decide ((decodeDigits a : Int) ≤ (decodeDigits b : Int)) &&
       decide ((decodeDigits b : Int) ≤ hi)
   | _ => false) ||
  (allDigits f && decide (lo ≤ (decodeDigits f : Int)) &&
    decide ((decodeDigits f : Int) ≤ hi))

/-- Modelled from the spec: "whitespace-separated fields" — split on runs
of spaces or tabs, dropping empty pieces. -/
def wsFieldsGo : List Char → List Char → List (List Char)
  | cur, [] => if cur.isEmpty then [] else [cur.reverse]
  | cur, c :: t =>
    if c = ' ' ∨ c = '\t' then
      if cur.isEmpty then wsFieldsGo [] t else cur.reverse :: wsFieldsGo [] t
    else wsFieldsGo (c :: cur) t

/-- Whitespace-separated fields of a string (spec-side reading). -/
def wsFields (s : List Char) : List (List Char) := wsFieldsGo [] s

theorem digit_ne_of_not_digit {c x : Char} (hc : Char.isDigit c = true)
    (hx : Char.isDigit x = false) : c ≠ x := by
  intro h; rw [h, hx] at hc; exact Bool.noConfusion hc

theorem jsWhitespace_of_digit {c : Char} (hc : Char.isDigit c = true) :
    jsWhitespace c = false := by
  have h1 : c ≠ ' ' := digit_ne_of_not_digit hc (by decide)
  have h2 : c ≠ '\t' := digit_ne_of_not_digit hc (by decide)
  have h3 : c ≠ '\n' := digit_ne_of_not_digit hc (by decide)
  have h4 : c ≠ '\r' := digit_ne_of_not_digit hc (by decide)
  simp [jsWhitespace, h1, h2, h3, h4]

theorem takeWhile_of_all {p : Char → Bool} :
    ∀ {l : List Char}, l.all p = true → l.takeWhile p = l := by
  intro l
  induction l with
  | nil => intro _; rfl
  | cons c t ih =>
    intro h
    rw [List.all_cons, Bool.and_eq_true] at h
    rw [List.takeWhile_cons, h.1]
    exact congrArg (c :: ·) (ih h.2)

theorem allDigits_decomp {ds : List Char} (h : allDigits ds = true) :
    ds ≠ [] ∧ ∀ c ∈ ds, Char.isDigit c = true := by
  rw [allDigits, Bool.and_eq_true, Bool.not_eq_true'] at h
  refine ⟨by simpa [List.isEmpty_iff] using h.1, ?_⟩
  intro c hc
  exact (List.all_eq_true.mp h.2) c hc

theorem jsParseInt10_digits {ds : List Char} (h : allDigits ds = true) :
    jsParseInt10 ds = some ((decodeDigits ds : Int)) := by
  obtain ⟨hne, hall⟩ := allDigits_decomp h
  cases ds with
  | nil => exact absurd rfl hne
  | cons c t =>
    have hc : Char.isDigit c = true := hall c (List.mem_cons_self c t)
    have hws : jsWhitespace c = false := jsWhitespace_of_digit hc
    have hcm : c ≠ '-' := digit_ne_of_not_digit hc (by decide)
    have hcp : c ≠ '+' := digit_ne_of_not_digit hc (by decide)
    have hdrop : (c :: t).dropWhile jsWhitespace = c :: t := by
      rw [List.dropWhile_cons, hws]; simp
    have htake : (c :: t).takeWhile Char.isDigit = c :: t :=
      takeWhile_of_all (List.all_eq_true.mpr hall)
    simp only [jsParseInt10, hdrop]
    rw [if_neg hcm, if_neg hcp]
    simp [leadingDigits, htake, List.isEmpty_iff]

theorem jsNumberInt_digits {ds : List Char} (h : allDigits ds = true) :
    jsNumberInt ds = some ((decodeDigits ds : Int)) := by
  obtain ⟨hne, hall⟩ := allDigits_decomp h
  cases ds with
  | nil => exact absurd rfl hne
  | cons c t =>
    have hc : Char.isDigit c = true := hall c (List.mem_cons_self c t)
    have hdrop : (c :: t).dropWhile jsWhitespace = c :: t := by
      rw [List.dropWhile_cons, jsWhitespace_of_digit hc]; simp
    have hrev : ∀ x ∈ (c :: t).reverse, Char.isDigit x = true := by
      intro x hx; exact hall x (List.mem_reverse.mp hx)
    have hdrop2 : (c :: t).reverse.dropWhile jsWhitespace = (c :: t).reverse := by
      cases hr : (c :: t).reverse with
      | nil => rfl
      | cons y r =>
        have hy : Char.isDigit y = true := by
          apply hrev; rw [hr]; exact List.mem_cons_self y r
        rw [List.dropWhile_cons, jsWhitespace_of_digit hy]; simp
    have hcm : c ≠ '-' := digit_ne_of_not_digit hc (by decide)
    have hcp : c ≠ '+' := digit_ne_of_not_digit hc (by decide)
    simp only [jsNumberInt, hdrop, hdrop2, List.reverse_reverse]
    rw [if_neg hcm, if_neg hcp, if_pos (List.all_eq_true.mpr hall)]

theorem splitCharL_ne_nil (sep : Char) : ∀ s : List Char, splitCharL sep s ≠ [] := by
  intro s
  cases s with
  | nil => simp [splitCharL]
  | cons c t =>
    simp only [splitCharL]
    split
    · simp
    · cases h : splitCharL sep t with
      | nil => simp [consHead]
      | cons x r => simp [consHead]

theorem joinWithL_cons_nil (sep : List Char) {l : List (List Char)} (h : l ≠ []) :
    joinWithL sep ([] :: l) = sep ++ joinWithL sep l := by
  cases l with
  | nil => exact absurd rfl h
  | cons y r => rfl

theorem joinWithL_consHead (sep : List Char) (c : Char) {l : List (List Char)} (h : l ≠ []) :
    joinWithL sep (consHead c l) = c :: joinWithL sep l := by
  cases l with
  | nil => exact absurd rfl h
  | cons y r =>
    cases r with
    | nil => rfl
    | cons z r2 => simp [consHead, joinWithL]

theorem join_splitCharL (sep : Char) : ∀ s : List Char, joinWithL [sep] (splitCharL sep s) = s := by
  intro s
  induction s with
  | nil => rfl
  | cons c t ih =>
    simp only [splitCharL]
    split
    · next hc =>
      rw [joinWithL_cons_nil [sep] (splitCharL_ne_nil sep t), ih, hc]
      rfl
    · next hc =>
      rw [joinWithL_consHead [sep] c (splitCharL_ne_nil sep t), ih]

theorem mem_joinWithL {c : Char} (sep : List Char) :
    ∀ l : List (List Char), c ∈ joinWithL sep l → c ∈ sep ∨ ∃ p ∈ l, c ∈ p := by
  intro l
  induction l with
  | nil => intro h; exact absurd h (List.not_mem_nil c)
  | cons x r ih =>
    cases r with
    | nil =>
      intro h
      exact Or.inr ⟨x, List.mem_cons_self x [], h⟩
    | cons y r2 =>
      intro h
      simp only [joinWithL, List.append_assoc, List.mem_append] at h
      rcases h with hx | hrest
      · exact Or.inr ⟨x, List.mem_cons_self x (y :: r2), hx⟩
      · rcases hrest with hsep | hj
        · exact Or.inl hsep
        · rcases ih hj with h1 | ⟨p, hp, hcp⟩
          · exact Or.inl h1
          · exact Or.inr ⟨p, List.mem_cons_of_mem x hp, hcp⟩

theorem splitCharL_append_sep (sep : Char) :
    ∀ (a rest : List Char), (∀ c ∈ a, c ≠ sep) →
      splitCharL sep (a ++ sep :: rest) = a :: splitCharL sep rest := by
  intro a
  induction a with
  | nil => intro rest _; simp [splitCharL]
  | cons c t ih =>
    intro rest h
    have hc : c ≠ sep := h c (List.mem_cons_self c t)
    simp only [List.cons_append, splitCharL, if_neg hc]
    show consHead c (splitCharL sep (t ++ sep :: rest)) = (c :: t) :: splitCharL sep rest
    rw [ih rest (fun x hx => h x (List.mem_cons_of_mem c hx))]
    rfl

theorem splitCharL_no_sep (sep : Char) :
    ∀ (a : List Char), (∀ c ∈ a, c ≠ sep) → splitCharL sep a = [a] := by
  intro a
  induction a with
  | nil => intro _; rfl
  | cons c t ih =>
    intro h
    have hc : c ≠ sep := h c (List.mem_cons_self c t)
    simp only [splitCharL, if_neg hc]
    rw [ih (fun x hx => h x (List.mem_cons_of_mem c hx))]
    rfl

theorem hasChar_eq_false {c : Char} {s : List Char} (h : ∀ x ∈ s, x ≠ c) :
    hasChar c s = false := by
  rw [hasChar]
  rw [Bool.eq_false_iff]
  intro hany
  rcases List.any_eq_true.mp hany with ⟨x, hx, hbeq⟩
  exact h x hx (by simpa using hbeq)

theorem hasChar_eq_true {c : Char} {s : List Char} (h : c ∈ s) : hasChar c s = true :=
  List.any_eq_true.mpr ⟨c, h, by simp⟩

theorem startsWithL_star_slash {f : List Char} (h : startsWithL ['*', '/'] f = true) :
    f = '*' :: '/' :: f.drop 2 := by
  cases f with
  | nil => exact Bool.noConfusion h
  | cons c t =>
    cases t with
    | nil =>
      simp only [startsWithL, Bool.and_eq_true] at h
      exact Bool.noConfusion h.2
    | cons c2 t2 =>
      simp only [startsWithL, Bool.and_eq_true, beq_iff_eq] at h
      obtain ⟨h1, h2, -⟩ := h
      subst h1; subst h2; rfl

theorem startsWithL_star_slash_false {f : List Char} {d : Char}
    (hd : Char.isDigit d = true) (hf : ∃ t, f = d :: t) :
    startsWithL ['*', '/'] f = false := by
  obtain ⟨t, ht⟩ := hf
  subst ht
  have : d ≠ '*' := digit_ne_of_not_digit hd (by decide)
  simp only [startsWithL, Bool.and_eq_false_iff]
  left
  simpa using fun heq => this heq.symm

theorem specFieldValid_elim {lo hi : Int} {f : List Char} (h : specFieldValid lo hi f = true) :
    f = ['*'] ∨
    (∃ ds, f = '*' :: '/' :: ds ∧ allDigits ds = true ∧ 0 < (decodeDigits ds : Int)) ∨
    (2 ≤ (splitCharL ',' f).length ∧ ∀ p ∈ splitCharL ',' f,
      allDigits p = true ∧ lo ≤ (decodeDigits p : Int) ∧ (decodeDigits p : Int) ≤ hi) ∨
    (∃ a b, splitCharL '-' f = [a, b] ∧ allDigits a = true ∧ allDigits b = true ∧
      lo ≤ (decodeDigits a : Int) ∧ (decodeDigits a : Int) ≤ (decodeDigits b : Int) ∧
      (decodeDigits b : Int) ≤ hi) ∨
    (allDigits f = true ∧ lo ≤ (decodeDigits f : Int) ∧ (decodeDigits f : Int) ≤ hi) := by
  rw [specFieldValid] at h
  simp only [Bool.or_eq_true, Bool.and_eq_true, decide_eq_true_eq, List.all_eq_true] at h
  rcases h with (((h | h) | h) | h) | h
  · exact Or.inl h
  · obtain ⟨⟨hsw, hdig⟩, hpos⟩ := h
    exact Or.inr (Or.inl ⟨f.drop 2, startsWithL_star_slash hsw, hdig, hpos⟩)
  · obtain ⟨hlen, hall⟩ := h
    refine Or.inr (Or.inr (Or.inl ⟨hlen, ?_⟩))
    intro p hp
    obtain ⟨⟨h1, h2⟩, h3⟩ := hall p hp
    exact ⟨h1, h2, h3⟩
  · rcases hs : splitCharL '-' f with _ | ⟨a, _ | ⟨b, _ | ⟨x, r⟩⟩⟩ <;> rw [hs] at h
    · exact Bool.noConfusion h
    · exact Bool.noConfusion h
    · simp only [Bool.and_eq_true, decide_eq_true_eq] at h
      obtain ⟨⟨⟨⟨h1, h2⟩, h3⟩, h4⟩, h5⟩ := h
      exact Or.inr (Or.inr (Or.inr (Or.inl ⟨a, b, rfl, h1, h2, h3, h4, h5⟩)))
    · exact Bool.noConfusion h
  · obtain ⟨⟨h1, h2⟩, h3⟩ := h
    exact Or.inr (Or.inr (Or.inr (Or.inr ⟨h1, h2, h3⟩)))

theorem specFieldValid_chars {lo hi : Int} {f : List Char} (h : specFieldValid lo hi f = true) :
    ∀ c ∈ f, Char.isDigit c = true ∨ c = '*' ∨ c = '/' ∨ c = ',' ∨ c = '-' := by
  intro c hc
  rcases specFieldValid_elim h with hf | ⟨ds, hf, hd, -⟩ | ⟨-, hall⟩ | ⟨a, b, hs, ha, hb, -⟩ | ⟨hd, -⟩
  · rw [hf] at hc
    rcases List.mem_singleton.mp hc with rfl
    exact Or.inr (Or.inl rfl)
  · rw [hf] at hc
    rcases hc with _ | ⟨_, hc2⟩
    · exact Or.inr (Or.inl rfl)
    · rcases hc2 with _ | ⟨_, hc3⟩
      · exact Or.inr (Or.inr (Or.inl rfl))
      · exact Or.inl ((allDigits_decomp hd).2 c hc3)
  · have hjoin : joinWithL [','] (splitCharL ',' f) = f := join_splitCharL ',' f
    rw [← hjoin] at hc
    rcases mem_joinWithL [','] (splitCharL ',' f) hc with hsep | ⟨p, hp, hcp⟩
    · exact Or.inr (Or.inr (Or.inr (Or.inl (List.mem_singleton.mp hsep))))
    · exact Or.inl ((allDigits_decomp (hall p hp).1).2 c hcp)
  · have hjoin : joinWithL ['-'] (splitCharL '-' f) = f := join_splitCharL '-' f
    rw [hs] at hjoin
    have hf : f = a ++ '-' :: b := by
      rw [← hjoin]; simp [joinWithL]
    rw [hf] at hc
    rcases List.mem_append.mp hc with hca | hcb
    · exact Or.inl ((allDigits_decomp ha).2 c hca)
    · rcases hcb with _ | ⟨_, hcb2⟩
      · exact Or.inr (Or.inr (Or.inr (Or.inr rfl)))
      · exact Or.inl ((allDigits_decomp hb).2 c hcb2)
  · exact Or.inl ((allDigits_decomp hd).2 c hc)

theorem specFieldValid_no_space {lo hi : Int} {f : List Char} (h : specFieldValid lo hi f = true) :
    ∀ c ∈ f, c ≠ ' ' := by
  intro c hc
  rcases specFieldValid_chars h c hc with hd | rfl | rfl | rfl | rfl
  · exact digit_ne_of_not_digit hd (by decide)
  · decide
  · decide
  · decide
  · decide

theorem parseField_ok_of_specValid {lo hi : Int} {f : List Char}
    (h : specFieldValid lo hi f = true) : ∃ vs, parseField f lo hi = .ok vs := by
  rcases specFieldValid_elim h with hf | ⟨ds, hf, hd, hpos⟩ | ⟨hlen, hall⟩ |
    ⟨a, b, hs, ha, hb, h3, h4, h5⟩ | ⟨hd, h2, h3⟩
  · subst hf
    exact ⟨intRange lo hi, by rw [parseField, if_pos rfl]⟩
  · subst hf
    have hne : ('*' :: '/' :: ds) ≠ ['*'] := by simp
    have hsw : startsWithL ['*', '/'] ('*' :: '/' :: ds) = true := by
      simp [startsWithL]
    have hpi : jsParseInt10 (List.drop 2 ('*' :: '/' :: ds)) = some ((decodeDigits ds : Int)) :=
      jsParseInt10_digits hd
    refine ⟨(intRange lo hi).filter
      (fun v => decide ((v - lo) % ((decodeDigits ds : Int)) = 0)), ?_⟩
    rw [parseField, if_neg hne, if_pos hsw, hpi]
    show (if ((decodeDigits ds : Int)) ≤ 0 then (Except.error "Invalid step" : Except String (List Int))
      else .ok ((intRange lo hi).filter
        (fun v => decide ((v - lo) % ((decodeDigits ds : Int)) = 0)))) = _
    rw [if_neg (by omega)]
  · have hjoin : joinWithL [','] (splitCharL ',' f) = f := join_splitCharL ',' f
    rcases hsp : splitCharL ',' f with _ | ⟨p1, _ | ⟨p2, r2⟩⟩ <;> rw [hsp] at hlen hjoin
    · simp at hlen
    · simp at hlen
    · have hf : f = p1 ++ ',' :: (joinWithL [','] (p2 :: r2)) := by
        rw [← hjoin]
        simp [joinWithL]
    -- the remaining facts draw on the membership of each piece
      have hp1 : allDigits p1 = true ∧ lo ≤ (decodeDigits p1 : Int) ∧ (decodeDigits p1 : Int) ≤ hi := by
        apply hall; rw [hsp]; exact List.mem_cons_self p1 (p2 :: r2)
      have hcm : ',' ∈ f := by
        rw [hf]
        exact List.mem_append.mpr (Or.inr (List.mem_cons_self ',' _))
      have hne : f ≠ ['*'] := by
        intro hcontra
        rw [hcontra] at hcm
        rcases List.mem_singleton.mp hcm with h0
        exact absurd h0 (by decide)
      obtain ⟨hp1ne, hp1dig⟩ := allDigits_decomp hp1.1
      have hnsw : startsWithL ['*', '/'] f = false := by
        cases hp1c : p1 with
        | nil => exact absurd hp1c hp1ne
        | cons d pt =>
          refine startsWithL_star_slash_false (hp1dig d (by rw [hp1c]; exact List.mem_cons_self d pt)) ?_
          refine ⟨pt ++ ',' :: (joinWithL [','] (p2 :: r2)), ?_⟩
          rw [hf, hp1c]
          rfl
      have hhc : hasChar ',' f = true := hasChar_eq_true hcm
      have hallb : (splitCharL ',' f).all (fun p =>
          match jsNumberInt p with
          | some v => decide (lo ≤ v) && decide (v ≤ hi)
          | none => false) = true := by
        apply List.all_eq_true.mpr
        intro p hp
        obtain ⟨hpd, hplo, hphi⟩ := hall p hp
        rw [jsNumberInt_digits hpd]
        simp [hplo, hphi]
      refine ⟨(splitCharL ',' f).map (fun p => (jsNumberInt p).getD 0), ?_⟩
      rw [parseField, if_neg hne, if_neg (by simp [hnsw]), if_pos hhc, if_pos hallb]
  · have hjoin : joinWithL ['-'] (splitCharL '-' f) = f := join_splitCharL '-' f
    rw [hs] at hjoin
    have hf : f = a ++ '-' :: b := by rw [← hjoin]; simp [joinWithL]
    have hdm : '-' ∈ f := by
      rw [hf]; exact List.mem_append.mpr (Or.inr (List.mem_cons_self '-' b))
    have hne : f ≠ ['*'] := by
      intro hcontra
      rw [hcontra] at hdm
      exact absurd (List.mem_singleton.mp hdm) (by decide)
    obtain ⟨hane, hadig⟩ := allDigits_decomp ha
    obtain ⟨hbne, hbdig⟩ := allDigits_decomp hb
    have hnsw : startsWithL ['*', '/'] f = false := by
      cases hac : a with
      | nil => exact absurd hac hane
      | cons d at2 =>
        refine startsWithL_star_slash_false (hadig d (by rw [hac]; exact List.mem_cons_self d at2)) ?_
        refine ⟨at2 ++ '-' :: b, ?_⟩
        rw [hf, hac]
        rfl
    have hnc : hasChar ',' f = false := by
      apply hasChar_eq_false
      intro x hx
      rw [hf] at hx
      rcases List.mem_append.mp hx with hxa | hxb
      · exact digit_ne_of_not_digit (hadig x hxa) (by decide)
      · rcases hxb with _ | ⟨_, hxb2⟩
        · decide
        · exact digit_ne_of_not_digit (hbdig x hxb2) (by decide)
    have hhd : hasChar '-' f = true := hasChar_eq_true hdm
    have hna : jsNumberInt a = some ((decodeDigits a : Int)) := jsNumberInt_digits ha
    have hnb : jsNumberInt b = some ((decodeDigits b : Int)) := jsNumberInt_digits hb
    have hcond : ¬ ((decodeDigits a : Int) < lo ∨ (decodeDigits b : Int) > hi ∨
        (decodeDigits a : Int) > (decodeDigits b : Int)) := by omega
    refine ⟨intRange ((decodeDigits a : Int)) ((decodeDigits b : Int)), ?_⟩
    rw [parseField, if_neg hne, if_neg (by simp [hnsw]), if_neg (by simp [hnc]), if_pos hhd]
    split
    · next a2 b2 r2 heq =>
      rw [hs] at heq
      injection heq with ha2 heq2
      injection heq2 with hb2 hr2
      subst ha2; subst hb2
      rw [hna, hnb]
      show (if ((decodeDigits a : Int)) < lo ∨ ((decodeDigits b : Int)) > hi ∨
          ((decodeDigits a : Int)) > ((decodeDigits b : Int)) then
          (Except.error "Invalid range" : Except String (List Int))
        else .ok (intRange ((decodeDigits a : Int)) ((decodeDigits b : Int)))) = _
      rw [if_neg hcond]
    · next x hno =>
      exact absurd hs (hno a b [])
  · have hne : f ≠ ['*'] := by
      intro hcontra
      rw [hcontra] at hd
      exact Bool.noConfusion hd
    obtain ⟨hfne, hfdig⟩ := allDigits_decomp hd
    have hnsw : startsWithL ['*', '/'] f = false := by
      cases hfc : f with
      | nil => exact absurd hfc hfne
      | cons d t =>
        exact startsWithL_star_slash_false (hfdig d (by rw [hfc]; exact List.mem_cons_self d t))
          ⟨t, rfl⟩
    have hnc : hasChar ',' f = false := by
      apply hasChar_eq_false
      intro x hx
      exact digit_ne_of_not_digit (hfdig x hx) (by decide)
    have hnd : hasChar '-' f = false := by
      apply hasChar_eq_false
      intro x hx
      exact digit_ne_of_not_digit (hfdig x hx) (by decide)
    have hpi : jsParseInt10 f = some ((decodeDigits f : Int)) := jsParseInt10_digits hd
    refine ⟨[((decodeDigits f : Int))], ?_⟩
    rw [parseField, if_neg hne, if_neg (by simp [hnsw]), if_neg (by simp [hnc]),
      if_neg (by simp [hnd]), hpi]
    show (if ((decodeDigits f : Int)) < lo ∨ ((decodeDigits f : Int)) > hi then
        (Except.error "Value out of range" : Except String (List Int))
      else .ok [((decodeDigits f : Int))]) = _
    rw [if_neg (by omega)]

/-- Discriminator for successful parses. -/
def exceptIsOk (e : Except String CronSets) : Bool :=
  match e with
  | .ok _ => true
  | .error _ => false

/-- A schedule whose five fields are separated by a tab and spaces. -/
def tabSchedule : String := String.mk ['*', '\t', '*', ' ', '*', ' ', '*', ' ', '*']

/-- Counterexample to claim C8: the string "*<TAB>* * * *" consists of
exactly 5 whitespace-separated fields, each valid per the field grammar,
yet parseCronSchedule rejects it (the source splits on single spaces only,
so the tab-joined piece makes only 4 space-separated parts); conversely the
string "5abc * * * *" parses successfully although its first field is not
valid per the grammar (parseInt ignores the trailing letters). -/
theorem parseCronSchedule_whitespace_counterexample :
    wsFields tabSchedule.data = [['*'], ['*'], ['*'], ['*'], ['*']] ∧
    (specFieldValid 0 59 ['*'] && specFieldValid 0 23 ['*'] && specFieldValid 1 31 ['*'] &&
      specFieldValid 1 12 ['*'] && specFieldValid 0 6 ['*']) = true ∧
    parseCronSchedule tabSchedule = .error "Invalid cron schedule" ∧
    exceptIsOk (parseCronSchedule "5abc * * * *") = true ∧
    specFieldValid 0 59 "5abc".data = false := by
  refine ⟨by decide, by decide, rfl, rfl, by decide⟩

/-- Claim C8 as amended: parseCronSchedule raises whenever the string does
not split on SINGLE SPACES into exactly 5 fields (tabs or runs of
whitespace are not accepted separators), and any string made of exactly 5
fields valid per the spec's field grammar, separated by single spaces,
parses successfully. (The field parser is also lenient beyond the strict
grammar, e.g. ignoring trailing non-digits after an integer, so validity is
sufficient but not necessary.) -/
theorem parseCronSchedule_amended :
    (∀ s : String, (splitCharL ' ' s.data).length ≠ 5 →
      parseCronSchedule s = .error "Invalid cron schedule") ∧
    (∀ f0 f1 f2 f3 f4 : List Char,
      specFieldValid 0 59 f0 = true → specFieldValid 0 23 f1 = true →
      specFieldValid 1 31 f2 = true → specFieldValid 1 12 f3 = true →
      specFieldValid 0 6 f4 = true →
      ∃ c, parseCronSchedule (String.mk
        (f0 ++ ' ' :: (f1 ++ ' ' :: (f2 ++ ' ' :: (f3 ++ ' ' :: f4))))) = .ok c) := by
  constructor
  · intro s h
    unfold parseCronSchedule
    rcases hl : splitCharL ' ' s.data with _ | ⟨a, _ | ⟨b, _ | ⟨c, _ | ⟨d, _ | ⟨e, _ | ⟨g, r⟩⟩⟩⟩⟩⟩
    · rfl
    · rfl
    · rfl
    · rfl
    · rfl
    · rw [hl] at h; simp at h
    · rfl
  · intro f0 f1 f2 f3 f4 h0 h1 h2 h3 h4
    obtain ⟨v0, hv0⟩ := parseField_ok_of_specValid h0
    obtain ⟨v1, hv1⟩ := parseField_ok_of_specValid h1
    obtain ⟨v2, hv2⟩ := parseField_ok_of_specValid h2
    obtain ⟨v3, hv3⟩ := parseField_ok_of_specValid h3
    obtain ⟨v4, hv4⟩ := parseField_ok_of_specValid h4
    have hsplit : splitCharL ' '
        (f0 ++ ' ' :: (f1 ++ ' ' :: (f2 ++ ' ' :: (f3 ++ ' ' :: f4)))) =
        [f0, f1, f2, f3, f4] := by
      rw [splitCharL_append_sep ' ' f0 _ (specFieldValid_no_space h0),
        splitCharL_append_sep ' ' f1 _ (specFieldValid_no_space h1),
        splitCharL_append_sep ' ' f2 _ (specFieldValid_no_space h2),
        splitCharL_append_sep ' ' f3 _ (specFieldValid_no_space h3),
        splitCharL_no_sep ' ' f4 (specFieldValid_no_space h4)]
    refine ⟨⟨v0, v1, v2, v3, v4⟩, ?_⟩
    unfold parseCronSchedule
    have hdata : (String.mk
        (f0 ++ ' ' :: (f1 ++ ' ' :: (f2 ++ ' ' :: (f3 ++ ' ' :: f4))))).data =
        f0 ++ ' ' :: (f1 ++ ' ' :: (f2 ++ ' ' :: (f3 ++ ' ' :: f4))) := rfl
    rw [hdata, hsplit]
    simp only [hv0, hv1, hv2, hv3, hv4, bind, Except.bind, pure, Except.pure]

/-- Witness for the amended C8: a three-field string is rejected, and five
concrete grammar-valid fields joined by single spaces are accepted. -/
theorem parseCronSchedule_amended_witness :
    parseCronSchedule "* * *" = .error "Invalid cron schedule" ∧
    ∃ c, parseCronSchedule (String.mk
      (['*'] ++ ' ' :: (['*', '/', '5'] ++ ' ' :: (['1', ',', '2'] ++ ' ' ::
        (['3', '-', '7'] ++ ' ' :: ['0'])))) ) = .ok c := by
  constructor
  · exact parseCronSchedule_amended.1 "* * *" (by decide)
  · exact parseCronSchedule_amended.2 ['*'] ['*', '/', '5'] ['1', ',', '2'] ['3', '-', '7'] ['0']
      (by decide) (by decide) (by decide) (by decide) (by decide)

/-- A stored cron job (`CronJobRow` of cron-schema.ts). -/
structure CronJob where
  name : String
  schedule : String
  session : String
  message : String
  scripts : Option (List CronScript)
  once : Option Bool
  runAt : Option Nat
deriving DecidableEq, Repr

/-- Status of a run-history record. -/
inductive RunStatus where
  | success
  | failure
deriving DecidableEq, Repr

/-- The run-history record handed to addCronRun (without the store-assigned
id). -/
structure RunData where
  cronName : String
  session : String
  startedAt : Nat
  status : RunStatus
  durationMs : Nat
  error : Option String
  message : String
  scriptResults : Option (List CronScriptResult)
deriving DecidableEq, Repr

/-- The outcome of racing ctx.inject against the 5-minute timeout: either
the delivery settled first and succeeded, or the race rejected (delivery
error or timeout) with an error message. -/
inductive DeliveryOutcome where
  | delivered
  | failed (msg : String)
deriving DecidableEq, Repr

/-- The daemon section of the main configuration, as read by the tick loop. -/
structure DaemonConfig where
  cronScriptsEnabled : Option Bool
deriving DecidableEq, Repr

/-- JavaScript truthiness of `cfg?.cronScriptsEnabled`: true only when the
config object exists and the flag is literally true. -/
def cronScriptsOn : Option DaemonConfig → Bool
  | none => false
  | some c => c.cronScriptsEnabled.getD false

/-- JavaScript truthiness of an optional boolean (`cron.once`). -/
def jsTruthyOptBool : Option Bool → Bool
  | some b => b
  | none => false

/-- JavaScript truthiness of an optional number (`lastRun[key]`): undefined
and 0 are falsy. -/
def jsTruthyOptNat : Option Nat → Bool
  | none => false
  | some n => n != 0

/-- Environment of one job's processing on one tick: outcome and duration
of each script execution (by script index) and of the delivery race, plus
the measured wall-clock duration. -/
structure JobEnv where
  scriptOutcome : Nat → ExecOutcome
  scriptDur : Nat → Nat
  delivery : DeliveryOutcome
  durationMs : Nat

/-- What one due job's processing produced: the message handed to inject,
the run record handed to addCronRun, and whether the job was queued for
removal. -/
structure JobRun where
  sent : String
  record : RunData
  removed : Bool
deriving DecidableEq, Repr

/-- The script-and-template phase of the tick body: when the job has a
non-empty script list and scripts are enabled, run them and resolve the
template; otherwise keep the original message and no results. -/
def resolvePhase (cfg : Option DaemonConfig) (env : JobEnv) (job : CronJob) :
    String × Option (List CronScriptResult) :=
  match job.scripts with
  | some scripts =>
    if scripts.length > 0 then
      if cronScriptsOn cfg then
        let rs := executeCronScripts env.scriptOutcome env.scriptDur scripts
        (resolveScriptTemplates job.message rs, some rs)
      else (job.message, none)
    else (job.message, none)
  | none => (job.message, none)

/-- The body of createCronTickLoop for one due job: the try branch records
a success RunRecord with the resolved message and script results and queues
one-time jobs for removal; the catch branch records a failure RunRecord
with the ORIGINAL template message, no script results, and no removal. -/
def processJob (cfg : Option DaemonConfig) (env : JobEnv) (startTime : Nat) (job : CronJob) :
    JobRun :=
  let phase := resolvePhase cfg env job
  match env.delivery with
  | .delivered =>
    { sent := phase.1
      record :=
        { cronName := job.name
          session := job.session
          startedAt := startTime
          status := .success
          durationMs := env.durationMs
          error := none
          message := phase.1
          scriptResults := phase.2 }
      removed := jsTruthyOptBool job.once }
  | .failed e =>
    { sent := phase.1
      record :=
        { cronName := job.name
          session := job.session
          startedAt := startTime
          status := .failure
          durationMs := env.durationMs
          error := some e
          message := job.message
          scriptResults := none }
      removed := false }

/-- Lookup in the in-memory lastRun map (`lastRun[key]`). -/
def lrGet (lr : List (String × Nat)) (k : String) : Option Nat :=
  (lr.find? (fun p => p.1 == k)).map (fun p => p.2)

/-- Update of the in-memory lastRun map (`lastRun[key] = v`). -/
def lrSet (lr : List (String × Nat)) (k : String) (v : Nat) : List (String × Nat) :=
  (k, v) :: lr

/-- The shouldExecute decision of the tick loop: a runAt job is due when
now has reached runAt and the job has not been marked fired (0 and absent
both count as unmarked, per JS truthiness); a recurring job is due when the
current minute bucket strictly exceeds the recorded one AND the schedule
matches now. -/
def isDue (lr : List (String × Nat)) (nowTs : Nat) (job : CronJob) (now : JsDate) : Bool :=
  match job.runAt with
  | some runAt => decide (nowTs ≥ runAt) && !(jsTruthyOptNat (lrGet lr job.name))
  | none =>
    decide (nowTs / 60000 > (lrGet lr job.name).getD 0) && shouldRunCron job.schedule now

/-- Environment of one whole tick: the Date and timestamp taken at its
start, the daemon config, and each job's execution environment by index. -/
structure TickEnv where
  now : JsDate
  nowTs : Nat
  cfg : Option DaemonConfig
  jobEnv : Nat → JobEnv

/-- One fired job's outcome within a tick. -/
structure TickOutcome where
  job : CronJob
  run : JobRun
deriving DecidableEq, Repr

/-- The per-job loop of one tick: walk the job list in order; for each due
job, record its minute bucket BEFORE processing, then process it. Returns
the final lastRun map and the outcomes of the fired jobs in order. -/
def tickGo (env : TickEnv) : Nat → List (String × Nat) → List CronJob →
    List (String × Nat) × List TickOutcome
  | _, lr, [] => (lr, [])
  | i, lr, job :: rest =>
    if isDue lr env.nowTs job env.now then
      let lr1 := lrSet lr job.name (env.nowTs / 60000)
      let run := processJob env.cfg (env.jobEnv i) env.nowTs job
      let next := tickGo env (i + 1) lr1 rest
      (next.1, ⟨job, run⟩ :: next.2)
    else
      tickGo env (i + 1) lr rest

/-- The run records appended during a tick, in order. -/
def tickRecords (outs : List TickOutcome) : List RunData :=
  outs.map (fun o => o.run.record)

/-- The names queued for removal during a tick (`toRemove`). -/
def tickToRemove (outs : List TickOutcome) : List String :=
  (outs.filter (fun o => o.run.removed)).map (fun o => o.job.name)

/-- Result of one full tick: final lastRun map, fired outcomes, and the job
store after the batched removals at the end of the scan. -/
structure TickResult where
  lastRun : List (String × Nat)
  outcomes : List TickOutcome
  jobs : List CronJob
deriving Repr

/-- One invocation of the tick loop of createCronTickLoop: process every
job in order, then apply the queued removals to the job store. -/
def tick (env : TickEnv) (lr : List (String × Nat)) (jobs : List CronJob) : TickResult :=
  let g := tickGo env 0 lr jobs
  { lastRun := g.1, outcomes := g.2,
    jobs := jobs.filter (fun j => !(tickToRemove g.2).contains j.name) }

/-- Claim C10: when a due job has a non-empty script list but the daemon
configuration is absent or its cronScriptsEnabled flag is not true, the
tick body skips script execution: the message handed to delivery is the
original template with placeholders unresolved, and the run record carries
the original message and no scriptResults — scripts are disabled by
default when the flag is unset. -/
theorem processJob_scripts_disabled :
    cronScriptsOn none = false ∧
    (∀ c : DaemonConfig, c.cronScriptsEnabled = none → cronScriptsOn (some c) = false) ∧
    (∀ (cfg : Option DaemonConfig) (env : JobEnv) (t : Nat) (job : CronJob)
      (scripts : List CronScript), job.scripts = some scripts → scripts ≠ [] →
      cronScriptsOn cfg = false →
      (processJob cfg env t job).sent = job.message ∧
      (processJob cfg env t job).record.message = job.message ∧
      (processJob cfg env t job).record.scriptResults = none) := by
  refine ⟨rfl, ?_, ?_⟩
  · intro c hc
    simp [cronScriptsOn, hc]
  · intro cfg env t job scripts hsc hne hoff
    have hphase : resolvePhase cfg env job = (job.message, none) := by
      rw [resolvePhase, hsc]
      have hlen : scripts.length > 0 := List.length_pos.mpr hne
      show (if scripts.length > 0 then
          if cronScriptsOn cfg = true then
            let rs := executeCronScripts env.scriptOutcome env.scriptDur scripts
            (resolveScriptTemplates job.message rs, some rs)
          else (job.message, none)
        else (job.message, none)) = (job.message, none)
      rw [if_pos hlen, if_neg (by simp [hoff])]
    unfold processJob
    rw [hphase]
    cases env.delivery <;> exact ⟨rfl, rfl, rfl⟩

/-- Witness for C10 at a concrete job and environments (config absent, and
config present with the flag unset; delivery success and failure). -/
theorem processJob_scripts_disabled_witness :
    cronScriptsOn none = false ∧
    (processJob none
      ⟨fun _ => ExecOutcome.ok "42\n" "", fun _ => 1, DeliveryOutcome.delivered, 5⟩ 100
      ⟨"j", "* * * * *", "s", "m", some [⟨"x", "echo 42", none, none⟩], none, none⟩).sent = "m" ∧
    (processJob (some ⟨none⟩)
      ⟨fun _ => ExecOutcome.ok "42\n" "", fun _ => 1, DeliveryOutcome.failed "boom", 5⟩ 100
      ⟨"j", "* * * * *", "s", "m", some [⟨"x", "echo 42", none, none⟩], none,
        none⟩).record.scriptResults = none := by
  refine ⟨processJob_scripts_disabled.1, ?_, ?_⟩
  · exact (processJob_scripts_disabled.2.2 none _ 100 _ [⟨"x", "echo 42", none, none⟩]
      rfl (by decide) rfl).1
  · exact (processJob_scripts_disabled.2.2 (some ⟨none⟩) _ 100 _ [⟨"x", "echo 42", none, none⟩]
      rfl (by decide) (processJob_scripts_disabled.2.1 ⟨none⟩ rfl)).2.2

theorem processJob_cronName (cfg : Option DaemonConfig) (env : JobEnv) (t : Nat) (job : CronJob) :
    (processJob cfg env t job).record.cronName = job.name := by
  unfold processJob
  cases env.delivery <;> rfl

theorem processJob_removed_iff (cfg : Option DaemonConfig) (env : JobEnv) (t : Nat)
    (job : CronJob) :
    (processJob cfg env t job).removed = true ↔
      env.delivery = .delivered ∧ jsTruthyOptBool job.once = true := by
  unfold processJob
  cases hd : env.delivery <;> simp

theorem tickGo_append (env : TickEnv) :
    ∀ (pre rest : List CronJob) (i : Nat) (lr : List (String × Nat)),
      tickGo env i lr (pre ++ rest) =
        ((tickGo env (i + pre.length) (tickGo env i lr pre).1 rest).1,
          (tickGo env i lr pre).2 ++ (tickGo env (i + pre.length) (tickGo env i lr pre).1 rest).2) := by
  intro pre
  induction pre with
  | nil =>
    intro rest i lr
    simp [tickGo]
  | cons job tail ih =>
    intro rest i lr
    simp only [List.cons_append, tickGo, List.append_eq]
    by_cases hd : isDue lr env.nowTs job env.now = true
    · rw [if_pos hd, if_pos hd]
      rw [ih rest (i + 1) (lrSet lr job.name (env.nowTs / 60000))]
      simp only [List.length_cons, List.cons_append]
      have harith : i + 1 + tail.length = i + (tail.length + 1) := by omega
      rw [harith]
    · rw [if_neg hd, if_neg hd]
      rw [ih rest (i + 1) lr]
      simp only [List.length_cons]
      have harith : i + 1 + tail.length = i + (tail.length + 1) := by omega
      rw [harith]

theorem tickGo_mem (env : TickEnv) :
    ∀ (js : List CronJob) (i : Nat) (lr : List (String × Nat)) (o : TickOutcome),
      o ∈ (tickGo env i lr js).2 →
      o.job ∈ js ∧ ∃ k, o.run = processJob env.cfg (env.jobEnv k) env.nowTs o.job := by
  intro js
  induction js with
  | nil => intro i lr o h; exact absurd h (List.not_mem_nil o)
  | cons job tail ih =>
    intro i lr o h
    by_cases hd : isDue lr env.nowTs job env.now = true
    · simp only [tickGo, if_pos hd] at h
      rcases List.mem_cons.mp h with h | h
      · subst h
        exact ⟨List.mem_cons_self job tail, i, rfl⟩
      · obtain ⟨hmem, k, hk⟩ := ih (i + 1) (lrSet lr job.name (env.nowTs / 60000)) o h
        exact ⟨List.mem_cons_of_mem job hmem, k, hk⟩
    · simp only [tickGo, if_neg hd] at h
      obtain ⟨hmem, k, hk⟩ := ih (i + 1) lr o h
      exact ⟨List.mem_cons_of_mem job hmem, k, hk⟩

theorem tickGo_record_cronName (env : TickEnv) {js : List CronJob} {i : Nat}
    {lr : List (String × Nat)} {o : TickOutcome} (h : o ∈ (tickGo env i lr js).2) :
    o.run.record.cronName = o.job.name := by
  obtain ⟨-, k, hk⟩ := tickGo_mem env js i lr o h
  rw [hk, processJob_cronName]

theorem tickToRemove_mem {outs : List TickOutcome} {n : String} :
    n ∈ tickToRemove outs ↔ ∃ o ∈ outs, o.run.removed = true ∧ o.job.name = n := by
  simp only [tickToRemove, List.mem_map, List.mem_filter]
  constructor
  · rintro ⟨o, ⟨ho, hr⟩, hn⟩
    exact ⟨o, ho, hr, hn⟩
  · rintro ⟨o, ho, hr, hn⟩
    exact ⟨o, ⟨ho, hr⟩, hn⟩

theorem names_split {pre post : List CronJob} {job : CronJob}
    (hnodup : ((pre ++ job :: post).map CronJob.name).Nodup) :
    job.name ∉ pre.map CronJob.name ∧ job.name ∉ post.map CronJob.name := by
  rw [List.map_append, List.map_cons] at hnodup
  rw [List.nodup_append] at hnodup
  obtain ⟨-, hcons, hdisj⟩ := hnodup
  constructor
  · intro hmem
    exact hdisj hmem (List.mem_cons_self _ _)
  · exact (List.nodup_cons.mp hcons).1

/-- A one-time job (once = true, past runAt) whose delivery fails. -/
def onceJobFail : CronJob := ⟨"j", "once", "s", "m", none, some true, some 100⟩

/-- Tick environment in which every delivery fails. -/
def envFail : TickEnv :=
  ⟨⟨0, 0, 1, 0, 4⟩, 200, none,
    fun _ => ⟨fun _ => ExecOutcome.ok "" "", fun _ => 0, DeliveryOutcome.failed "boom", 7⟩⟩

/-- Counterexample to claim C1: a once=true job whose runAt has passed is
attempted on the tick (a failure RunRecord is produced), but because the
delivery failed it is NOT queued for removal and remains in the job store
after the scan — removal only happens on success. -/
theorem tick_once_failure_counterexample :
    (tick envFail [] [onceJobFail]).jobs = [onceJobFail] ∧
    (tick envFail [] [onceJobFail]).outcomes.map (fun o => o.run.record.status) =
      [RunStatus.failure] := by
  exact ⟨by decide, by decide⟩

/-- Claim C1 as amended: a once=true job that is due on a tick is queued
for removal and deleted from the store after the full scan ONLY when the
delivery attempt succeeds; when the attempt fails (delivery error or
timeout), the job is not queued for removal and remains in the store
(though the in-memory last-run marker prevents re-firing in this process). -/
theorem tick_once_removal (env : TickEnv) (lr : List (String × Nat)) (pre post : List CronJob)
    (job : CronJob)
    (hnodup : ((pre ++ job :: post).map CronJob.name).Nodup)
    (honce : job.once = some true)
    (hdue : isDue (tickGo env 0 lr pre).1 env.nowTs job env.now = true) :
    ((env.jobEnv pre.length).delivery = .delivered →
      job.name ∈ tickToRemove (tick env lr (pre ++ job :: post)).outcomes ∧
      ∀ j ∈ (tick env lr (pre ++ job :: post)).jobs, j.name ≠ job.name) ∧
    (∀ e, (env.jobEnv pre.length).delivery = .failed e →
      job.name ∉ tickToRemove (tick env lr (pre ++ job :: post)).outcomes ∧
      job ∈ (tick env lr (pre ++ job :: post)).jobs) := by
  obtain ⟨hnotpre, hnotpost⟩ := names_split hnodup
  have houts : (tick env lr (pre ++ job :: post)).outcomes =
      (tickGo env 0 lr pre).2 ++
        ⟨job, processJob env.cfg (env.jobEnv pre.length) env.nowTs job⟩ ::
        (tickGo env (pre.length + 1)
          (lrSet (tickGo env 0 lr pre).1 job.name (env.nowTs / 60000)) post).2 := by
    show (tickGo env 0 lr (pre ++ job :: post)).2 = _
    rw [tickGo_append env pre (job :: post) 0 lr]
    simp only [Nat.zero_add]
    rw [show tickGo env pre.length (tickGo env 0 lr pre).1 (job :: post) =
        (if isDue (tickGo env 0 lr pre).1 env.nowTs job env.now then
          let lr1 := lrSet (tickGo env 0 lr pre).1 job.name (env.nowTs / 60000)
          let run := processJob env.cfg (env.jobEnv pre.length) env.nowTs job
          let next := tickGo env (pre.length + 1) lr1 post
          (next.1, ⟨job, run⟩ :: next.2)
        else tickGo env (pre.length + 1) (tickGo env 0 lr pre).1 post) from rfl]
    rw [if_pos hdue]
  have hside : ∀ o ∈ (tickGo env 0 lr pre).2, o.job.name ≠ job.name := by
    intro o ho
    intro hcontra
    exact hnotpre (hcontra ▸ List.mem_map_of_mem CronJob.name (tickGo_mem env pre 0 lr o ho).1)
  have hside2 : ∀ o ∈ (tickGo env (pre.length + 1)
      (lrSet (tickGo env 0 lr pre).1 job.name (env.nowTs / 60000)) post).2,
      o.job.name ≠ job.name := by
    intro o ho
    intro hcontra
    exact hnotpost (hcontra ▸ List.mem_map_of_mem CronJob.name (tickGo_mem env post _ _ o ho).1)
  constructor
  · intro hdel
    have hrem : (processJob env.cfg (env.jobEnv pre.length) env.nowTs job).removed = true :=
      (processJob_removed_iff _ _ _ _).mpr ⟨hdel, by rw [honce]; rfl⟩
    have hmemrm : job.name ∈ tickToRemove (tick env lr (pre ++ job :: post)).outcomes := by
      rw [houts]
      exact tickToRemove_mem.mpr
        ⟨⟨job, processJob env.cfg (env.jobEnv pre.length) env.nowTs job⟩,
          List.mem_append.mpr (Or.inr (List.mem_cons_self _ _)), hrem, rfl⟩
    refine ⟨hmemrm, ?_⟩
    intro j hj hcontra
    have hj2 := List.mem_filter.mp hj
    have := hj2.2
    rw [hcontra] at this
    simp only [List.contains, Bool.not_eq_true', List.elem_eq_mem, decide_eq_false_iff_not] at this
    exact this hmemrm
  · intro e hfail
    have hnorem : job.name ∉ tickToRemove (tick env lr (pre ++ job :: post)).outcomes := by
      rw [houts]
      intro hmem
      obtain ⟨o, ho, hrm, hname⟩ := tickToRemove_mem.mp hmem
      rcases List.mem_append.mp ho with hpre2 | hmid
      · exact hside o hpre2 hname
      · rcases hmid with _ | ⟨_, hpost2⟩
        · obtain ⟨hd2, -⟩ := (processJob_removed_iff _ _ _ _).mp hrm
          rw [hfail] at hd2
          exact DeliveryOutcome.noConfusion hd2
        · exact hside2 o hpost2 hname
    refine ⟨hnorem, ?_⟩
    show job ∈ (pre ++ job :: post).filter _
    rw [List.mem_filter]
    refine ⟨List.mem_append.mpr (Or.inr (List.mem_cons_self _ _)), ?_⟩
    simp only [List.contains, Bool.not_eq_true', List.elem_eq_mem, decide_eq_false_iff_not]
    exact hnorem

/-- Tick environment in which every delivery succeeds. -/
def envOk : TickEnv :=
  ⟨⟨0, 0, 1, 0, 4⟩, 200, none,
    fun _ => ⟨fun _ => ExecOutcome.ok "" "", fun _ => 0, DeliveryOutcome.delivered, 7⟩⟩

/-- Witness for the amended C1: the one-time job is queued for removal on a
successful tick, and stays in the store on a failed one. -/
theorem tick_once_removal_witness :
    onceJobFail.name ∈ tickToRemove (tick envOk [] [onceJobFail]).outcomes ∧
    onceJobFail.name ∉ tickToRemove (tick envFail [] [onceJobFail]).outcomes ∧
    onceJobFail ∈ (tick envFail [] [onceJobFail]).jobs := by
  refine ⟨?_, ?_, ?_⟩
  · exact ((tick_once_removal envOk [] [] [] onceJobFail (by decide) rfl (by decide)).1 rfl).1
  · exact ((tick_once_removal envFail [] [] [] onceJobFail (by decide) rfl
      (by decide)).2 "boom" rfl).1
  · exact ((tick_once_removal envFail [] [] [] onceJobFail (by decide) rfl
      (by decide)).2 "boom" rfl).2

/-- A due job with one script and a placeholder message. -/
def scriptedJob : CronJob :=
  ⟨"sj", "once", "s", "Result: \x7b\x7bx\x7d\x7d", some [⟨"x", "echo 42", none, none⟩],
    none, some 100⟩

/-- Tick environment with scripts enabled, a successful script producing
"42", and a failing delivery. -/
def envscriptFail : TickEnv :=
  ⟨⟨0, 0, 1, 0, 4⟩, 200, some ⟨some true⟩,
    fun _ => ⟨fun _ => ExecOutcome.ok "42\n" "", fun _ => 1, DeliveryOutcome.failed "boom", 7⟩⟩

/-- Counterexample to claim C5: the job's scripts ran and template
resolution occurred (the message handed to delivery is "Result: 42"), the
delivery then failed — but the failure RunRecord's message is the ORIGINAL
template text, not the resolved text. -/
theorem tick_failure_records_original_counterexample :
    (tick envscriptFail [] [scriptedJob]).outcomes.map (fun o => o.run.sent) = ["Result: 42"] ∧
    (tick envscriptFail [] [scriptedJob]).outcomes.map (fun o => o.run.record.message) =
      ["Result: \x7b\x7bx\x7d\x7d"] ∧
    ("Result: 42" : String) ≠ "Result: \x7b\x7bx\x7d\x7d" := by
  exact ⟨by decide, by decide, by decide⟩

/-- Claim C5 as amended: for every due job processed on a tick exactly one
RunRecord is appended, whether the attempt succeeds or fails; on success
its message is the text actually sent (the resolved text when resolution
occurred, the original template otherwise); on failure its message is
always the ORIGINAL template text, even when scripts ran and resolution
occurred before the delivery failed. -/
theorem tick_one_record_message (env : TickEnv) (lr : List (String × Nat))
    (pre post : List CronJob) (job : CronJob)
    (hnodup : ((pre ++ job :: post).map CronJob.name).Nodup)
    (hdue : isDue (tickGo env 0 lr pre).1 env.nowTs job env.now = true) :
    (tickRecords (tick env lr (pre ++ job :: post)).outcomes).filter
        (fun r => r.cronName == job.name) =
      [(processJob env.cfg (env.jobEnv pre.length) env.nowTs job).record] ∧
    ((env.jobEnv pre.length).delivery = .delivered →
      (processJob env.cfg (env.jobEnv pre.length) env.nowTs job).record.message =
        (processJob env.cfg (env.jobEnv pre.length) env.nowTs job).sent ∧
      (processJob env.cfg (env.jobEnv pre.length) env.nowTs job).sent =
        (resolvePhase env.cfg (env.jobEnv pre.length) job).1) ∧
    (∀ e, (env.jobEnv pre.length).delivery = .failed e →
      (processJob env.cfg (env.jobEnv pre.length) env.nowTs job).record.message =
        job.message ∧
      (processJob env.cfg (env.jobEnv pre.length) env.nowTs job).sent =
        (resolvePhase env.cfg (env.jobEnv pre.length) job).1) := by
  obtain ⟨hnotpre, hnotpost⟩ := names_split hnodup
  have houts : (tick env lr (pre ++ job :: post)).outcomes =
      (tickGo env 0 lr pre).2 ++
        ⟨job, processJob env.cfg (env.jobEnv pre.length) env.nowTs job⟩ ::
        (tickGo env (pre.length + 1)
          (lrSet (tickGo env 0 lr pre).1 job.name (env.nowTs / 60000)) post).2 := by
    show (tickGo env 0 lr (pre ++ job :: post)).2 = _
    rw [tickGo_append env pre (job :: post) 0 lr]
    simp only [Nat.zero_add]
    rw [show tickGo env pre.length (tickGo env 0 lr pre).1 (job :: post) =
        (if isDue (tickGo env 0 lr pre).1 env.nowTs job env.now then
          let lr1 := lrSet (tickGo env 0 lr pre).1 job.name (env.nowTs / 60000)
          let run := processJob env.cfg (env.jobEnv pre.length) env.nowTs job
          let next := tickGo env (pre.length + 1) lr1 post
          (next.1, ⟨job, run⟩ :: next.2)
        else tickGo env (pre.length + 1) (tickGo env 0 lr pre).1 post) from rfl]
    rw [if_pos hdue]
  refine ⟨?_, ?_, ?_⟩
  · rw [houts]
    unfold tickRecords
    rw [List.map_append, List.map_cons, List.filter_append]
    have hleft : ((tickGo env 0 lr pre).2.map (fun o => o.run.record)).filter
        (fun r => r.cronName == job.name) = [] := by
      rw [List.filter_eq_nil_iff]
      intro r hr
      obtain ⟨o, ho, hor⟩ := List.mem_map.mp hr
      have h1 : r.cronName = o.job.name := by rw [← hor]; exact tickGo_record_cronName env ho
      have h2 : o.job.name ≠ job.name := by
        intro hcontra
        exact hnotpre (hcontra ▸ List.mem_map_of_mem CronJob.name (tickGo_mem env pre 0 lr o ho).1)
      simp [h1, h2]
    have hright : ((tickGo env (pre.length + 1)
        (lrSet (tickGo env 0 lr pre).1 job.name (env.nowTs / 60000)) post).2.map
          (fun o => o.run.record)).filter (fun r => r.cronName == job.name) = [] := by
      rw [List.filter_eq_nil_iff]
      intro r hr
      obtain ⟨o, ho, hor⟩ := List.mem_map.mp hr
      have h1 : r.cronName = o.job.name := by rw [← hor]; exact tickGo_record_cronName env ho
      have h2 : o.job.name ≠ job.name := by
        intro hcontra
        exact hnotpost (hcontra ▸ List.mem_map_of_mem CronJob.name (tickGo_mem env post _ _ o ho).1)
      simp [h1, h2]
    rw [hleft]
    rw [List.filter_cons_of_pos (by simp [processJob_cronName])]
    rw [hright]
    rfl
  · intro hdel
    unfold processJob
    rw [hdel]
    exact ⟨rfl, rfl⟩
  · intro e hfail
    unfold processJob
    rw [hfail]
    exact ⟨rfl, rfl⟩

/-- Witness for the amended C5: on the concrete failing scripted tick, the
single matching record carries the original template while the sent text is
the resolved one. -/
theorem tick_one_record_message_witness :
    (tickRecords (tick envscriptFail [] [scriptedJob]).outcomes).filter
        (fun r => r.cronName == scriptedJob.name) =
      [(processJob envscriptFail.cfg (envscriptFail.jobEnv 0) envscriptFail.nowTs
        scriptedJob).record] ∧
    (processJob envscriptFail.cfg (envscriptFail.jobEnv 0) envscriptFail.nowTs
        scriptedJob).record.message = scriptedJob.message := by
  refine ⟨(tick_one_record_message envscriptFail [] [] [] scriptedJob (by decide)
    (by decide)).1, ?_⟩
  exact ((tick_one_record_message envscriptFail [] [] [] scriptedJob (by decide)
    (by decide)).2.2 "boom" rfl).1

/-- Repeated invocation of the tick loop, threading the in-memory lastRun
map and the job store from one tick to the next. -/
def runTicks : List TickEnv → List (String × Nat) → List CronJob → List TickResult
  | [], _, _ => []
  | e :: rest, lr, jobs =>
    let r := tick e lr jobs
    r :: runTicks rest r.lastRun r.jobs

/-- The recorded minute bucket for a name (0 when absent, as in
`lastRun[key] || 0`). -/
def lrSt (lr : List (String × Nat)) (n : String) : Nat := (lrGet lr n).getD 0

/-- Placeholder job environment (used only as a getD default). -/
def dummyJobEnv : JobEnv :=
  ⟨fun _ => ExecOutcome.ok "" "", fun _ => 0, DeliveryOutcome.delivered, 0⟩

/-- Placeholder tick environment (used only as a getD default). -/
def dummyTickEnv : TickEnv := ⟨⟨0, 0, 0, 0, 0⟩, 0, none, fun _ => dummyJobEnv⟩

/-- Empty tick result (used only as a getD default). -/
def emptyTickResult : TickResult := ⟨[], [], []⟩

/-- The result of the t-th tick of a run. -/
def ticksResultAt (envs : List TickEnv) (lr : List (String × Nat)) (jobs : List CronJob)
    (t : Nat) : TickResult :=
  (runTicks envs lr jobs).getD t emptyTickResult

/-- The minute bucket of the t-th tick's timestamp. -/
def tickBucketAt (envs : List TickEnv) (t : Nat) : Nat :=
  (envs.getD t dummyTickEnv).nowTs / 60000

theorem lrSt_set (lr : List (String × Nat)) (n : String) (b : Nat) :
    lrSt (lrSet lr n b) n = b := by
  simp [lrSt, lrGet, lrSet, List.find?]

theorem isDue_recurring {j : CronJob} (hra : j.runAt = none) (lr : List (String × Nat))
    (ts : Nat) (d : JsDate) :
    isDue lr ts j d = (decide (ts / 60000 > lrSt lr j.name) && shouldRunCron j.schedule d) := by
  rw [isDue, hra, lrSt]

theorem isDue_recurring_gt {j : CronJob} (hra : j.runAt = none) {lr : List (String × Nat)}
    {ts : Nat} {d : JsDate} (h : isDue lr ts j d = true) : ts / 60000 > lrSt lr j.name := by
  rw [isDue_recurring hra] at h
  rw [Bool.and_eq_true] at h
  exact of_decide_eq_true h.1

theorem tick_single_jobs (e : TickEnv) (lr : List (String × Nat)) {j : CronJob}
    (ho : jsTruthyOptBool j.once = false) : (tick e lr [j]).jobs = [j] := by
  by_cases hd : isDue lr e.nowTs j e.now = true
  · have hrm : (processJob e.cfg (e.jobEnv 0) e.nowTs j).removed = false := by
      unfold processJob
      cases (e.jobEnv 0).delivery
      · exact ho
      · rfl
    simp [tick, tickGo, hd, tickToRemove, hrm]
  · simp [tick, tickGo, hd, tickToRemove]

theorem tick_single_fired (e : TickEnv) (lr : List (String × Nat)) (j : CronJob) :
    ((tick e lr [j]).outcomes ≠ [] ↔ isDue lr e.nowTs j e.now = true) := by
  by_cases hd : isDue lr e.nowTs j e.now = true
  · simp [tick, tickGo, hd]
  · simp [tick, tickGo, hd]

theorem tick_single_lastRun (e : TickEnv) (lr : List (String × Nat)) (j : CronJob) :
    (tick e lr [j]).lastRun =
      if isDue lr e.nowTs j e.now = true then lrSet lr j.name (e.nowTs / 60000) else lr := by
  by_cases hd : isDue lr e.nowTs j e.now = true
  · simp [tick, tickGo, hd]
  · simp [tick, tickGo, hd]

theorem runTicks_fired_gt {j : CronJob} (hra : j.runAt = none)
    (ho : jsTruthyOptBool j.once = false) :
    ∀ (envs : List TickEnv) (lr : List (String × Nat)) (t : Nat),
      (ticksResultAt envs lr [j] t).outcomes ≠ [] → tickBucketAt envs t > lrSt lr j.name := by
  intro envs
  induction envs with
  | nil =>
    intro lr t hf
    exact absurd rfl hf
  | cons e rest ih =>
    intro lr t hf
    cases t with
    | zero =>
      have hf0 : (tick e lr [j]).outcomes ≠ [] := by
        simpa [ticksResultAt, runTicks] using hf
      have hdue := (tick_single_fired e lr j).mp hf0
      exact isDue_recurring_gt hra hdue
    | succ t =>
      have hf2 : (ticksResultAt rest (tick e lr [j]).lastRun [j] t).outcomes ≠ [] := by
        have : ticksResultAt (e :: rest) lr [j] (t + 1) =
            ticksResultAt rest (tick e lr [j]).lastRun ((tick e lr [j]).jobs) t := by
          simp [ticksResultAt, runTicks]
        rw [this, tick_single_jobs e lr ho] at hf
        exact hf
      have hgt := ih (tick e lr [j]).lastRun t hf2
      have hbt : tickBucketAt (e :: rest) (t + 1) = tickBucketAt rest t := by
        simp [tickBucketAt]
      rw [hbt]
      by_cases hd : isDue lr e.nowTs j e.now = true
      · have hl : (tick e lr [j]).lastRun = lrSet lr j.name (e.nowTs / 60000) := by
          rw [tick_single_lastRun, if_pos hd]
        rw [hl, lrSt_set] at hgt
        have := isDue_recurring_gt hra hd
        omega
      · have hl : (tick e lr [j]).lastRun = lr := by
          rw [tick_single_lastRun, if_neg hd]
        rw [hl] at hgt
        exact hgt

/-- Claim C6: a recurring job (no runAt) is due on a tick exactly when the
current minute bucket floor(now/60000) strictly exceeds the bucket recorded
for its name (0 when none) AND the schedule matches now; and because the
bucket is recorded before execution, across ANY sequence of ticks the job
fires at most once per minute bucket: any two fired ticks of a run have
strictly increasing (hence distinct) buckets, even with 30-second ticks
inside a matching minute. -/
theorem tick_recurring_minute_bucket (j : CronJob) (hra : j.runAt = none)
    (ho : jsTruthyOptBool j.once = false) :
    (∀ (lr : List (String × Nat)) (nowTs : Nat) (now : JsDate),
      isDue lr nowTs j now =
        (decide (nowTs / 60000 > (lrGet lr j.name).getD 0) && shouldRunCron j.schedule now)) ∧
    (∀ (envs : List TickEnv) (lr : List (String × Nat)) (i k : Nat), i < k →
      (ticksResultAt envs lr [j] i).outcomes ≠ [] →
      (ticksResultAt envs lr [j] k).outcomes ≠ [] →
      tickBucketAt envs i < tickBucketAt envs k) := by
  refine ⟨fun lr nowTs now => isDue_recurring hra lr nowTs now, ?_⟩
  intro envs
  induction envs with
  | nil =>
    intro lr i k hik hfi hfk
    exact absurd rfl hfi
  | cons e rest ih =>
    intro lr i k hik hfi hfk
    cases k with
    | zero => omega
    | succ k =>
      have hshift : ∀ t, ticksResultAt (e :: rest) lr [j] (t + 1) =
          ticksResultAt rest (tick e lr [j]).lastRun [j] t := by
        intro t
        have : ticksResultAt (e :: rest) lr [j] (t + 1) =
            ticksResultAt rest (tick e lr [j]).lastRun ((tick e lr [j]).jobs) t := by
          simp [ticksResultAt, runTicks]
        rw [this, tick_single_jobs e lr ho]
      have hfk2 : (ticksResultAt rest (tick e lr [j]).lastRun [j] k).outcomes ≠ [] := by
        rw [hshift k] at hfk
        exact hfk
      cases i with
      | zero =>
        have hf0 : (tick e lr [j]).outcomes ≠ [] := by
          simpa [ticksResultAt, runTicks] using hfi
        have hdue := (tick_single_fired e lr j).mp hf0
        have hl : (tick e lr [j]).lastRun = lrSet lr j.name (e.nowTs / 60000) := by
          rw [tick_single_lastRun, if_pos hdue]
        have hgt := runTicks_fired_gt hra ho rest (tick e lr [j]).lastRun k hfk2
        rw [hl, lrSt_set] at hgt
        have hb0 : tickBucketAt (e :: rest) 0 = e.nowTs / 60000 := by
          simp [tickBucketAt]
        have hbk : tickBucketAt (e :: rest) (k + 1) = tickBucketAt rest k := by
          simp [tickBucketAt]
        omega
      | succ i =>
        have hfi2 : (ticksResultAt rest (tick e lr [j]).lastRun [j] i).outcomes ≠ [] := by
          rw [hshift i] at hfi
          exact hfi
        have := ih (tick e lr [j]).lastRun i k (by omega) hfi2 hfk2
        have hbi : tickBucketAt (e :: rest) (i + 1) = tickBucketAt rest i := by
          simp [tickBucketAt]
        have hbk : tickBucketAt (e :: rest) (k + 1) = tickBucketAt rest k := by
          simp [tickBucketAt]
        omega

/-- A recurring every-minute job. -/
def everyMinuteJob : CronJob := ⟨"r", "* * * * *", "s", "m", none, none, none⟩

/-- A tick in minute bucket 2. -/
def envBucket2 : TickEnv := ⟨⟨0, 0, 1, 0, 4⟩, 120000, none, fun _ => dummyJobEnv⟩

/-- A tick in minute bucket 3. -/
def envBucket3 : TickEnv := ⟨⟨0, 0, 1, 0, 4⟩, 180000, none, fun _ => dummyJobEnv⟩

/-- Witness for C6: over a concrete two-tick run where the recurring job
fires on both ticks, the fired buckets are strictly increasing. -/
theorem tick_recurring_minute_bucket_witness :
    isDue [] 120000 everyMinuteJob ⟨0, 0, 1, 0, 4⟩ =
      (decide (120000 / 60000 > (lrGet [] everyMinuteJob.name).getD 0) &&
        shouldRunCron everyMinuteJob.schedule ⟨0, 0, 1, 0, 4⟩) ∧
    tickBucketAt [envBucket2, envBucket3] 0 < tickBucketAt [envBucket2, envBucket3] 1 := by
  constructor
  · exact (tick_recurring_minute_bucket everyMinuteJob rfl rfl).1 [] 120000 ⟨0, 0, 1, 0, 4⟩
  · exact (tick_recurring_minute_bucket everyMinuteJob rfl rfl).2 [envBucket2, envBucket3]
      [] 0 1 (by decide) (by decide) (by decide)
